import Mathlib

/-!
Verification of the crop-sampling and coordinate-transform engine of
`apps/blender/resources/images/entrypoints/scripts/verifier_tools/crop_generator.py`.

The Python code emulates the external renderer's IEEE-754 single-precision
arithmetic with `numpy.float32`, while the sampler's own bookkeeping runs in
Python double precision.  Both precisions are modelled exactly over `ℚ`:
a binary floating-point value is a rational number, and each arithmetic
operation of the code is the exact rational operation followed by correct
rounding to the format (round to nearest, ties to even).  The model has no
exponent overflow: values of magnitude `≥ 2^128` (float32) would become
infinite in the real formats, but every quantity appearing in this component
stays far below that threshold.  Subnormal granularity (`2^-149` / `2^-1074`)
is modelled exactly.
-/

set_option maxRecDepth 20000
set_option maxHeartbeats 1000000

attribute [local semireducible] Rat.add Rat.mul Rat.inv Rat.sub

/-- Integer power of two as a rational, computable without `zpow`
(kernel-friendly: only `Nat.pow` and `mkRat`). -/
def pow2 (e : ℤ) : ℚ :=
  if 0 ≤ e then mkRat (2^e.toNat) 1 else mkRat 1 (2^(-e).toNat)

/-- Round a rational to the nearest integer, ties to even. -/
def rte (q : ℚ) : ℤ :=
  if q - ⌊q⌋ < 1/2 then ⌊q⌋
  else if 1/2 < q - ⌊q⌋ then ⌊q⌋ + 1
  else if ⌊q⌋ % 2 = 0 then ⌊q⌋ else ⌊q⌋ + 1

/-- Fuel-based floor base-2 logarithm on naturals (kernel-friendly). -/
def natLog2F : ℕ → ℕ → ℕ
  | 0, _ => 0
  | fuel+1, n => if n < 2 then 0 else natLog2F fuel (n / 2) + 1

def natLog2 (n : ℕ) : ℕ := natLog2F n n

/-- Floor base-2 logarithm of a positive rational. -/
def qlog2 (q : ℚ) : ℤ :=
  if q < pow2 ((natLog2 q.num.toNat : ℤ) - (natLog2 q.den : ℤ))
  then (natLog2 q.num.toNat : ℤ) - (natLog2 q.den : ℤ) - 1
  else (natLog2 q.num.toNat : ℤ) - (natLog2 q.den : ℤ)

/-- Exponent of the unit in the last place used when rounding `q ≥ 0` into a
binary format with `prec` significand bits and minimal ulp exponent `emin`. -/
def ulpExp (prec emin : ℤ) (q : ℚ) : ℤ := max emin (qlog2 q - (prec - 1))

/-- Correctly round a nonnegative rational to the format (nearest, ties even). -/
def froundPos (prec emin : ℤ) (q : ℚ) : ℚ :=
  (rte (q / pow2 (ulpExp prec emin q)) : ℚ) * pow2 (ulpExp prec emin q)

/-- Correctly round a rational to the binary floating-point format with `prec`
significand bits and minimal ulp exponent `emin` (round to nearest, ties to
even, symmetric in sign, no exponent overflow). -/
def fround (prec emin : ℤ) (q : ℚ) : ℚ :=
  if q < 0 then -froundPos prec emin (-q) else froundPos prec emin q

/-- IEEE-754 binary32 rounding (`numpy.float32` conversion / arithmetic). -/
def f32round (q : ℚ) : ℚ := fround 24 (-149) q

/-- IEEE-754 binary64 rounding (Python float arithmetic). -/
def f64round (q : ℚ) : ℚ := fround 53 (-1074) q

/-- numpy float32 multiplication: exact product, correctly rounded. -/
def mulF32 (a b : ℚ) : ℚ := f32round (a * b)

/-- numpy float32 addition: exact sum, correctly rounded. -/
def addF32 (a b : ℚ) : ℚ := f32round (a + b)

/-- numpy float32 division: exact quotient, correctly rounded. -/
def divF32 (a b : ℚ) : ℚ := f32round (a / b)

/-- Python double multiplication. -/
def mulF64 (a b : ℚ) : ℚ := f64round (a * b)

/-- Python double addition. -/
def addF64 (a b : ℚ) : ℚ := f64round (a + b)

/-- Python double subtraction. -/
def subF64 (a b : ℚ) : ℚ := f64round (a - b)

/-- Python double (true) division. -/
def divF64 (a b : ℚ) : ℚ := f64round (a / b)

/-- Python `int(x)` applied to a float: truncation toward zero. -/
def pyInt (q : ℚ) : ℤ := if q < 0 then ⌈q⌉ else ⌊q⌋

/-- Python `round(x, 2)`: the multiple of `1/100` nearest to the exact value
of the double `x` (ties to the even multiple), converted back to the nearest
double. -/
def pyRound2 (q : ℚ) : ℚ := f64round ((rte (q * 100) : ℚ) / 100)

/-- The `Region` of `crop_generator.py`: fractional coordinates (Python doubles),
bottom-origin vertical axis by the renderer's convention. -/
structure Region where
  left : ℚ
  top : ℚ
  right : ℚ
  bottom : ℚ
deriving DecidableEq

/-- The `PixelRegion` of `crop_generator.py`: integer raster coordinates. -/
structure PixelRegion where
  left : ℤ
  top : ℤ
  right : ℤ
  bottom : ℤ
deriving DecidableEq

/-- One coordinate of `SubImage.calculate_pixels`:
`math.floor(numpy.float32(v) * numpy.float32(d) + SubImage.PIXEL_OFFSET)`
with `PIXEL_OFFSET = numpy.float32(0.5) = 1/2` exactly. -/
def scale_to_pixel (v : ℚ) (d : ℤ) : ℤ :=
  ⌊addF32 (mulF32 (f32round v) (f32round (d : ℚ))) (1/2)⌋

/-- The `SubImage.calculate_pixels(region, width, height)`.  The pixel `top` is
computed from the fraction `bottom` and vice versa (OpenGL UV fractions are
bottom-origin, pixel rows are top-origin). -/
def calculate_pixels (region : Region) (width height : ℤ) : PixelRegion :=
  { left := scale_to_pixel region.left width
    top := scale_to_pixel region.bottom height
    right := scale_to_pixel region.right width
    bottom := scale_to_pixel region.top height }

/-- The `SubImage`: the subtask's fraction region, the full-frame resolution and
the derived pixel rectangle and sizes. -/
structure SubImage where
  region : Region
  resolutionX : ℤ
  resolutionY : ℤ
  pixel_region : PixelRegion
  width : ℤ
  height : ℤ
deriving DecidableEq

/-- The `SubImage.__init__(region, resolution)`: derives `pixel_region`,
`width = pixel_region.right - pixel_region.left` and
`height = pixel_region.top - pixel_region.bottom`.  No validation of any
kind is performed. -/
def mkSubImage (region : Region) (resolutionX resolutionY : ℤ) : SubImage :=
  { region := region
    resolutionX := resolutionX
    resolutionY := resolutionY
    pixel_region := calculate_pixels region resolutionX resolutionY
    width := (calculate_pixels region resolutionX resolutionY).right -
      (calculate_pixels region resolutionX resolutionY).left
    height := (calculate_pixels region resolutionX resolutionY).top -
      (calculate_pixels region resolutionX resolutionY).bottom }

/-- One coordinate of `Crop.calculate_borders`:
`numpy.float32((numpy.float32(p) + SubImage.PIXEL_OFFSET) / numpy.float32(d))`. -/
def border_coordinate (p d : ℤ) : ℚ :=
  f32round (divF32 (addF32 (f32round (p : ℚ)) (1/2)) (f32round (d : ℚ)))

/-- The `Crop.calculate_borders(pixel_region, width, height)`: the fraction
`bottom` comes from the pixel `top` and vice versa. -/
def calculate_borders (pixel_region : PixelRegion) (width height : ℤ) : Region :=
  { left := border_coordinate pixel_region.left width
    top := border_coordinate pixel_region.bottom height
    right := border_coordinate pixel_region.right width
    bottom := border_coordinate pixel_region.top height }

/-- The `Crop`: id, pixel rectangle and fraction rectangle.  The Python object
also keeps a back-reference to its `SubImage`; none of the operations
modelled here read it, so it is omitted. -/
structure Crop where
  id : ℤ
  pixel_region : PixelRegion
  crop_region : Region
deriving DecidableEq

/-- The `Crop.create_from_pixel_region`: stores the pixel region and derives the
fraction region from the full-frame resolution. -/
def create_from_pixel_region (id_ : ℤ) (pixel_region : PixelRegion)
    (subimage : SubImage) : Crop :=
  { id := id_
    pixel_region := pixel_region
    crop_region := calculate_borders pixel_region subimage.resolutionX
      subimage.resolutionY }

/-- The two failure modes of the samplers: the explicit
`Exception("Subtask is too small for reliable verification")` and the
`ValueError` that `random.randint(a, b)` raises when `b < a`. -/
inductive SamplerError where
  | subtaskTooSmall
  | valueError
deriving DecidableEq

/-- The value drawn by `random.randint(lo, hi)` on a nonempty range: the
ambient randomness is modelled by folding the supplied integer `r` into the
range (every value of `[lo, hi]` is reachable for a suitable `r`). -/
def randValue (lo hi r : ℤ) : ℤ := lo + (r - lo) % (hi - lo + 1)

/-- The `random.randint(lo, hi)`: raises `ValueError` on an empty range,
otherwise returns a value of `[lo, hi]`. -/
def randint (lo hi r : ℤ) : Except SamplerError ℤ :=
  if hi < lo then .error .valueError
  else .ok (randValue lo hi r)

/-- The `_get_random_interval_within_boundaries(begin, end, interval_length)`:
shrinks the range by one pixel on each side, raises `SubtaskTooSmall` when
`end - 1 - interval_length < 0`, then draws the interval start by
`randint(begin + 1, end - 1 - interval_length)`. -/
def get_random_interval_within_boundaries (begin_ end_ interval_length r : ℤ) :
    Except SamplerError (ℤ × ℤ) :=
  if end_ - 1 - interval_length < 0 then .error .subtaskTooSmall
  else
    match randint (begin_ + 1) (end_ - 1 - interval_length) r with
    | .error e => .error e
    | .ok interval_begin => .ok (interval_begin, interval_begin + interval_length)

/-- The `generate_single_random_crop_data_old(subimage, crop_size_px, id)`:
draws the horizontal interval from `[pixel_region.left, pixel_region.right]`,
the vertical one from `[pixel_region.bottom, pixel_region.top]`, and builds
the crop via `create_from_pixel_region` (with the vertical axis flip in the
`PixelRegion` constructor call). -/
def generate_single_random_crop_data_old (subimage : SubImage)
    (crop_size_x crop_size_y id_ rx ry : ℤ) : Except SamplerError Crop :=
  match get_random_interval_within_boundaries subimage.pixel_region.left
      subimage.pixel_region.right crop_size_x rx with
  | .error e => .error e
  | .ok crop_horizontal =>
    match get_random_interval_within_boundaries subimage.pixel_region.bottom
        subimage.pixel_region.top crop_size_y ry with
    | .error e => .error e
    | .ok crop_vertical =>
      .ok (create_from_pixel_region id_
        ⟨crop_horizontal.1, crop_vertical.2, crop_horizontal.2, crop_vertical.1⟩
        subimage)

/-- The `while relative_crop_size * resolution < 8: relative_crop_size += 0.01`
adjustment loop of `generate_single_random_crop_data`, with explicit fuel
(2000 steps are far more than the loop can ever take; see the C7 theorem).
The guard multiplies the double `rel` by the dimension converted to double;
the increment adds the double literal `0.01`. -/
def adjustRel (res : ℤ) : ℕ → ℚ → ℚ
  | 0, rel => rel
  | fuel+1, rel =>
    if mulF64 rel (f64round (res : ℚ)) < 8
    then adjustRel res fuel (addF64 rel (f64round (1/100)))
    else rel

/-- The `relative_crop_size_x` after the adjustment loop. -/
def relSizeX (s : SubImage) : ℚ := adjustRel s.resolutionX 2000 (f64round (1/10))

/-- The `relative_crop_size_y` after the adjustment loop. -/
def relSizeY (s : SubImage) : ℚ := adjustRel s.resolutionY 2000 (f64round (1/10))

/-- The `int(crop_scene_x_min * 100)` with `crop_scene_x_min = region.left`. -/
def xLowBound (s : SubImage) : ℤ := pyInt (mulF64 s.region.left 100)

/-- The `int(x_difference)` with
`x_difference = round((crop_scene_x_max - relative_crop_size_x) * 100, 2)`
and `crop_scene_x_max = region.right`. -/
def xHighBound (s : SubImage) : ℤ :=
  pyInt (pyRound2 (mulF64 (subF64 s.region.right (relSizeX s)) 100))

/-- The `int(crop_scene_y_min * 100)` with `crop_scene_y_min = region.top`
(note the vertical swap in the source: `crop_scene_y_min` is the *top*). -/
def yLowBound (s : SubImage) : ℤ := pyInt (mulF64 s.region.top 100)

/-- The `int(y_difference)` with
`y_difference = round((crop_scene_y_max - relative_crop_size_y) * 100, 2)`
and `crop_scene_y_max = region.bottom`. -/
def yHighBound (s : SubImage) : ℤ :=
  pyInt (pyRound2 (mulF64 (subF64 s.region.bottom (relSizeY s)) 100))

/-- The pixel/crop assembly at the end of `generate_single_random_crop_data`:
`x_pixel_min` is origin-relative, `x_pixel_max` is not; both vertical
coordinates subtract the value projection from the origin projection.  All
projections are `floor(float32 product)` with no half-pixel offset. -/
def cropFromFractions (s : SubImage) (id_ : ℤ) (xMin xMax yMin yMax : ℚ) : Crop :=
  { id := id_
    pixel_region :=
      { left := ⌊mulF32 (f32round (s.resolutionX : ℚ)) (f32round xMin)⌋ -
          ⌊mulF32 (f32round s.region.left) (f32round (s.resolutionX : ℚ))⌋
        top := ⌊mulF32 (f32round s.region.bottom) (f32round (s.resolutionY : ℚ))⌋ -
          ⌊mulF32 (f32round (s.resolutionY : ℚ)) (f32round yMax)⌋
        right := ⌊mulF32 (f32round (s.resolutionX : ℚ)) (f32round xMax)⌋
        bottom := ⌊mulF32 (f32round s.region.bottom) (f32round (s.resolutionY : ℚ))⌋ -
          ⌊mulF32 (f32round (s.resolutionY : ℚ)) (f32round yMin)⌋ }
    crop_region := { left := xMin, top := yMin, right := xMax, bottom := yMax } }

/-- The `generate_single_random_crop_data(subimage, id)` (the current,
fraction-space sampler); `rx`, `ry` model the ambient randomness of the two
`randint` draws. -/
def generate_single_random_crop_data (s : SubImage) (id_ rx ry : ℤ) :
    Except SamplerError Crop :=
  match randint (xLowBound s) (xHighBound s) rx with
  | .error e => .error e
  | .ok kx =>
    match randint (yLowBound s) (yHighBound s) ry with
    | .error e => .error e
    | .ok ky =>
      .ok (cropFromFractions s id_
        (divF64 (kx : ℚ) 100)
        (pyRound2 (addF64 (divF64 (kx : ℚ) 100) (relSizeX s)))
        (divF64 (ky : ℚ) 100)
        (pyRound2 (addF64 (divF64 (ky : ℚ) 100) (relSizeY s))))

instance {ε α : Type} [DecidableEq ε] [DecidableEq α] :
    DecidableEq (Except ε α) := fun a b =>
  match a, b with
  | .error x, .error y =>
    if h : x = y then .isTrue (by rw [h])
    else .isFalse (fun hc => h (Except.error.inj hc))
  | .error _, .ok _ => .isFalse (fun hc => Except.noConfusion hc)
  | .ok _, .error _ => .isFalse (fun hc => Except.noConfusion hc)
  | .ok x, .ok y =>
    if h : x = y then .isTrue (by rw [h])
    else .isFalse (fun hc => h (Except.ok.inj hc))

def c10subimage : SubImage := ⟨⟨0, 0, 0, 0⟩, 800, 600, ⟨0, 100, 100, 0⟩, 100, 100⟩

def c10crop : Crop :=
  ((generate_single_random_crop_data_old c10subimage 8 8 3 0 0).toOption).getD
    ⟨0, ⟨0, 0, 0, 0⟩, ⟨0, 0, 0, 0⟩⟩

def c5subimage : SubImage := mkSubImage ⟨0, 0, 1, 1⟩ 800 600

def c5crop : Crop :=
  ((generate_single_random_crop_data c5subimage 1 60 50).toOption).getD
    ⟨0, ⟨0, 0, 0, 0⟩, ⟨0, 0, 0, 0⟩⟩

def c6subimage : SubImage := mkSubImage ⟨1/2, 0, 1, 1⟩ 800 600

def c6crop : Crop :=
  ((generate_single_random_crop_data c6subimage 2 60 50).toOption).getD
    ⟨0, ⟨0, 0, 0, 0⟩, ⟨0, 0, 0, 0⟩⟩

theorem pow2_eq_zpow (e : ℤ) : pow2 e = (2:ℚ)^e := by
  unfold pow2
  split
  case isTrue h =>
    rw [Rat.mkRat_one]
    rw [show (2:ℚ)^e = (2:ℚ)^(e.toNat : ℤ) by rw [Int.toNat_of_nonneg h]]
    rw [zpow_natCast]
    push_cast
    ring
  case isFalse h =>
    rw [show (2:ℚ)^e = ((2:ℚ)^((-e).toNat : ℤ))⁻¹ by
      rw [← zpow_neg, Int.toNat_of_nonneg (by omega : 0 ≤ -e), neg_neg]]
    rw [zpow_natCast, Rat.mkRat_eq_div]
    push_cast
    rw [one_div]

theorem pow2_pos (e : ℤ) : 0 < pow2 e := by
  rw [pow2_eq_zpow]
  exact zpow_pos (by norm_num) e

theorem rte_intCast (n : ℤ) : rte (n : ℚ) = n := by
  simp [rte]

theorem abs_rte_sub (q : ℚ) : |(rte q : ℚ) - q| ≤ 1/2 := by
  have hf1 : (⌊q⌋ : ℚ) ≤ q := Int.floor_le q
  have hf2 : q < ⌊q⌋ + 1 := Int.lt_floor_add_one q
  unfold rte
  split
  case isTrue h =>
    rw [abs_le]
    constructor <;> linarith
  case isFalse h =>
    push_neg at h
    split
    case isTrue h2 =>
      rw [abs_le]
      push_cast
      constructor <;> linarith
    case isFalse h2 =>
      push_neg at h2
      have heq : q - ⌊q⌋ = 1/2 := le_antisymm h2 h
      split
      all_goals rw [abs_le]; push_cast; constructor <;> linarith

theorem rte_mono {q1 q2 : ℚ} (h : q1 ≤ q2) : rte q1 ≤ rte q2 := by
  have hfl : ⌊q1⌋ ≤ ⌊q2⌋ := Int.floor_le_floor h
  have hf1a : (⌊q1⌋ : ℚ) ≤ q1 := Int.floor_le q1
  have hf1b : q1 < ⌊q1⌋ + 1 := Int.lt_floor_add_one q1
  have hf2a : (⌊q2⌋ : ℚ) ≤ q2 := Int.floor_le q2
  have hf2b : q2 < ⌊q2⌋ + 1 := Int.lt_floor_add_one q2
  rcases lt_or_eq_of_le hfl with hlt | heq
  · -- different floors: rte q1 ≤ ⌊q1⌋ + 1 ≤ ⌊q2⌋ ≤ rte q2
    have h1 : rte q1 ≤ ⌊q1⌋ + 1 := by
      unfold rte
      repeat' split
      all_goals omega
    have h2 : ⌊q2⌋ ≤ rte q2 := by
      unfold rte
      repeat' split
      all_goals omega
    omega
  · -- same floor: exhaustive case analysis on the branch conditions
    unfold rte
    rw [← heq]
    repeat' split
    all_goals first
      | omega
      | (exfalso; linarith)

theorem rte_nonneg {q : ℚ} (h : 0 ≤ q) : 0 ≤ rte q := by
  have := @rte_mono ((0:ℤ) : ℚ) q (by exact_mod_cast h)
  rwa [rte_intCast] at this

theorem int_le_rte {n : ℤ} {q : ℚ} (h : (n:ℚ) ≤ q) : n ≤ rte q := by
  have := @rte_mono (n : ℚ) q h
  rwa [rte_intCast] at this

theorem rte_le_int {n : ℤ} {q : ℚ} (h : q ≤ (n:ℚ)) : rte q ≤ n := by
  have := @rte_mono q (n : ℚ) h
  rwa [rte_intCast] at this

theorem rte_eq_zero {q : ℚ} (h0 : 0 ≤ q) (h1 : q ≤ 1/2) : rte q = 0 := by
  have hfl : ⌊q⌋ = 0 := by
    rw [Int.floor_eq_zero_iff]
    constructor
    · exact h0
    · dsimp
      linarith
  unfold rte
  rw [hfl]
  push_cast
  split
  · rfl
  · split
    · linarith
    · simp

theorem natLog2F_spec : ∀ fuel n, 1 ≤ n → n ≤ fuel →
    2^(natLog2F fuel n) ≤ n ∧ n < 2^(natLog2F fuel n + 1) := by
  intro fuel
  induction fuel with
  | zero => intro n h1 h2; omega
  | succ f ih =>
    intro n h1 h2
    rw [natLog2F]
    split
    case isTrue h =>
      constructor
      · simpa using by omega
      · simpa using by omega
    case isFalse h =>
      push_neg at h
      have hd1 : 1 ≤ n / 2 := by omega
      have hd2 : n / 2 ≤ f := by omega
      obtain ⟨ha, hb⟩ := ih (n / 2) hd1 hd2
      constructor
      · calc 2^(natLog2F f (n/2) + 1) = 2 * 2^(natLog2F f (n/2)) := by ring
        _ ≤ 2 * (n / 2) := by omega
        _ ≤ n := by omega
      · calc n ≤ 2 * (n / 2) + 1 := by omega
        _ < 2 * 2^(natLog2F f (n/2) + 1) := by omega
        _ = 2^(natLog2F f (n/2) + 1 + 1) := by ring

theorem natLog2_spec {n : ℕ} (h : 1 ≤ n) :
    2^(natLog2 n) ≤ n ∧ n < 2^(natLog2 n + 1) :=
  natLog2F_spec n n h le_rfl

theorem qlog2_spec {q : ℚ} (hq : 0 < q) :
    (2:ℚ)^(qlog2 q) ≤ q ∧ q < (2:ℚ)^(qlog2 q + 1) := by
  have hnum : 0 < q.num := Rat.num_pos.mpr hq
  have hden : 0 < q.den := q.den_pos
  have hnn : 1 ≤ q.num.toNat := by omega
  have hdn : 1 ≤ q.den := hden
  obtain ⟨ha1, ha2⟩ := natLog2_spec hnn
  obtain ⟨hb1, hb2⟩ := natLog2_spec hdn
  set a : ℤ := (natLog2 q.num.toNat : ℤ) with hadef
  set b : ℤ := (natLog2 q.den : ℤ) with hbdef
  have hqeq : q = (q.num : ℚ) / (q.den : ℚ) := (Rat.num_div_den q).symm
  have hnum' : ((2:ℚ))^(a) ≤ (q.num : ℚ) := by
    rw [hadef, zpow_natCast]
    have h1 : ((2:ℤ))^(natLog2 q.num.toNat) ≤ q.num := by
      calc ((2:ℤ))^(natLog2 q.num.toNat) = ((2^(natLog2 q.num.toNat) : ℕ) : ℤ) := by
            push_cast; ring
      _ ≤ (q.num.toNat : ℤ) := by exact_mod_cast ha1
      _ = q.num := by omega
    exact_mod_cast h1
  have hnum'' : (q.num : ℚ) < ((2:ℚ))^(a + 1) := by
    rw [hadef, show ((natLog2 q.num.toNat : ℤ) + 1) = ((natLog2 q.num.toNat + 1 : ℕ) : ℤ) by
      push_cast; ring, zpow_natCast]
    have h1 : q.num < ((2:ℤ))^(natLog2 q.num.toNat + 1) := by
      calc q.num = (q.num.toNat : ℤ) := by omega
      _ < ((2^(natLog2 q.num.toNat + 1) : ℕ) : ℤ) := by exact_mod_cast ha2
      _ = ((2:ℤ))^(natLog2 q.num.toNat + 1) := by push_cast; ring
    exact_mod_cast h1
  have hden' : ((2:ℚ))^(b) ≤ (q.den : ℚ) := by
    rw [hbdef, zpow_natCast]
    exact_mod_cast hb1
  have hden'' : (q.den : ℚ) < ((2:ℚ))^(b + 1) := by
    rw [hbdef, show ((natLog2 q.den : ℤ) + 1) = ((natLog2 q.den + 1 : ℕ) : ℤ) by
      push_cast; ring, zpow_natCast]
    exact_mod_cast hb2
  have hdenpos : (0:ℚ) < (q.den : ℚ) := by exact_mod_cast hden
  have hq_lo : (2:ℚ)^(a - b - 1) < q := by
    rw [hqeq, lt_div_iff hdenpos]
    calc (2:ℚ)^(a - b - 1) * (q.den : ℚ) < (2:ℚ)^(a - b - 1) * (2:ℚ)^(b+1) := by
          exact mul_lt_mul_of_pos_left hden'' (by positivity)
    _ = (2:ℚ)^(a) := by
          rw [← zpow_add₀ (by norm_num : (2:ℚ) ≠ 0)]
          ring_nf
    _ ≤ (q.num : ℚ) := hnum'
  have hq_hi : q < (2:ℚ)^(a - b + 1) := by
    rw [hqeq, div_lt_iff hdenpos]
    calc (q.num : ℚ) < (2:ℚ)^(a+1) := hnum''
    _ = (2:ℚ)^(a - b + 1) * (2:ℚ)^(b) := by
          rw [← zpow_add₀ (by norm_num : (2:ℚ) ≠ 0)]
          ring_nf
    _ ≤ (2:ℚ)^(a - b + 1) * (q.den : ℚ) := by
          exact mul_le_mul_of_nonneg_left hden' (by positivity)
  unfold qlog2
  rw [pow2_eq_zpow]
  rw [← hadef, ← hbdef]
  split
  case isTrue h =>
    refine ⟨le_of_lt hq_lo, ?_⟩
    have he : a - b - 1 + 1 = a - b := by ring
    rw [he]
    exact h
  case isFalse h =>
    push_neg at h
    exact ⟨h, hq_hi⟩

theorem qlog2_le_of_le {q : ℚ} {E : ℤ} (hq : 0 < q) (h : q ≤ (2:ℚ)^E) :
    qlog2 q ≤ E := by
  obtain ⟨h1, _⟩ := qlog2_spec hq
  by_contra hc
  push_neg at hc
  have h3 : (2:ℚ)^(E+1) ≤ (2:ℚ)^(qlog2 q) := by
    apply zpow_le_zpow_right₀ (by norm_num)
    omega
  have h2 : (2:ℚ)^E < (2:ℚ)^(E+1) := by
    apply zpow_lt_zpow_right₀ (by norm_num)
    omega
  linarith

theorem qlog2_mono {q1 q2 : ℚ} (hq : 0 < q1) (h : q1 ≤ q2) :
    qlog2 q1 ≤ qlog2 q2 := by
  have hq2 : 0 < q2 := lt_of_lt_of_le hq h
  obtain ⟨h1, _⟩ := qlog2_spec hq
  obtain ⟨_, h2⟩ := qlog2_spec hq2
  have h3 : (2:ℚ)^(qlog2 q1) < (2:ℚ)^(qlog2 q2 + 1) := by
    calc (2:ℚ)^(qlog2 q1) ≤ q1 := h1
    _ ≤ q2 := h
    _ < (2:ℚ)^(qlog2 q2 + 1) := h2
  have := (zpow_lt_zpow_iff_right₀ (by norm_num : (1:ℚ) < 2)).mp h3
  omega

theorem qlog2_eq_of {q : ℚ} {e : ℤ} (h1 : (2:ℚ)^e ≤ q) (h2 : q < (2:ℚ)^(e+1)) :
    qlog2 q = e := by
  have hq : 0 < q := lt_of_lt_of_le (zpow_pos (by norm_num) e) h1
  obtain ⟨ha, hb⟩ := qlog2_spec hq
  have hx : (2:ℚ)^(qlog2 q) < (2:ℚ)^(e+1) := lt_of_le_of_lt ha h2
  have hy : (2:ℚ)^e < (2:ℚ)^(qlog2 q + 1) := lt_of_le_of_lt h1 hb
  have hx' := (zpow_lt_zpow_iff_right₀ (by norm_num : (1:ℚ) < 2)).mp hx
  have hy' := (zpow_lt_zpow_iff_right₀ (by norm_num : (1:ℚ) < 2)).mp hy
  omega

theorem froundPos_nonneg {prec emin : ℤ} {q : ℚ} (h : 0 ≤ q) :
    0 ≤ froundPos prec emin q := by
  unfold froundPos
  have h1 : 0 ≤ rte (q / pow2 (ulpExp prec emin q)) :=
    rte_nonneg (div_nonneg h (le_of_lt (pow2_pos _)))
  have h2 : 0 ≤ pow2 (ulpExp prec emin q) := le_of_lt (pow2_pos _)
  exact mul_nonneg (by exact_mod_cast h1) h2

theorem fround_of_nonneg {prec emin : ℤ} {q : ℚ} (h : 0 ≤ q) :
    fround prec emin q = froundPos prec emin q := by
  unfold fround
  rw [if_neg (by push_neg; exact h)]

theorem fround_nonneg {prec emin : ℤ} {q : ℚ} (h : 0 ≤ q) :
    0 ≤ fround prec emin q := by
  rw [fround_of_nonneg h]
  exact froundPos_nonneg h

theorem froundPos_zero {prec emin : ℤ} : froundPos prec emin 0 = 0 := by
  unfold froundPos
  rw [zero_div, rte_eq_zero le_rfl (by norm_num)]
  norm_num

theorem pow2_int_of_nonneg {e : ℤ} (he : 0 ≤ e) :
    ((2^e.toNat : ℤ) : ℚ) = (2:ℚ)^e := by
  have h1 : (2:ℚ)^e = (2:ℚ)^(e.toNat : ℤ) := by rw [Int.toNat_of_nonneg he]
  rw [h1, zpow_natCast]
  push_cast
  ring

/-- Scaled half-ulp bound for rounding at a fixed ulp exponent. -/
theorem rte_scale_err (k : ℤ) (q : ℚ) :
    |(rte (q / (2:ℚ)^k) : ℚ) * (2:ℚ)^k - q| ≤ (2:ℚ)^(k-1) := by
  have hpk : (0:ℚ) < (2:ℚ)^k := zpow_pos (by norm_num) k
  calc |(rte (q / (2:ℚ)^k) : ℚ) * (2:ℚ)^k - q|
      = |((rte (q / (2:ℚ)^k) : ℚ) - q / (2:ℚ)^k) * (2:ℚ)^k| := by
        rw [sub_mul, div_mul_cancel₀ _ (ne_of_gt hpk)]
  _ = |(rte (q / (2:ℚ)^k) : ℚ) - q / (2:ℚ)^k| * (2:ℚ)^k := by
        rw [abs_mul, abs_of_pos hpk]
  _ ≤ 1/2 * (2:ℚ)^k := mul_le_mul_of_nonneg_right (abs_rte_sub _) (le_of_lt hpk)
  _ = (2:ℚ)^(k-1) := by
        rw [zpow_sub₀ (by norm_num : (2:ℚ) ≠ 0), zpow_one]
        ring

theorem froundPos_err {prec emin E : ℤ} {q : ℚ}
    (hq : 0 ≤ q) (hE : q ≤ (2:ℚ)^E) (hemin : emin + prec ≤ E + 1) :
    |froundPos prec emin q - q| ≤ (2:ℚ)^(E - prec) := by
  rcases eq_or_lt_of_le hq with hq0 | hqpos
  · rw [← hq0, froundPos_zero]
    simp only [sub_zero, abs_zero]
    positivity
  · have hk : ulpExp prec emin q ≤ E - prec + 1 := by
      have h1 : qlog2 q ≤ E := qlog2_le_of_le hqpos hE
      unfold ulpExp
      apply max_le <;> omega
    unfold froundPos
    rw [pow2_eq_zpow]
    refine le_trans (rte_scale_err _ _) ?_
    exact zpow_le_zpow_right₀ (by norm_num) (by omega)

theorem fround_err {prec emin E : ℤ} {q : ℚ}
    (hq : 0 ≤ q) (hE : q ≤ (2:ℚ)^E) (hemin : emin + prec ≤ E + 1) :
    |fround prec emin q - q| ≤ (2:ℚ)^(E - prec) := by
  rw [fround_of_nonneg hq]
  exact froundPos_err hq hE hemin

theorem fround_mono {prec emin : ℤ} (hprec : 1 ≤ prec) {q1 q2 : ℚ}
    (h0 : 0 ≤ q1) (h : q1 ≤ q2) :
    fround prec emin q1 ≤ fround prec emin q2 := by
  have h0' : 0 ≤ q2 := le_trans h0 h
  rw [fround_of_nonneg h0, fround_of_nonneg h0']
  rcases eq_or_lt_of_le h0 with hq0 | hq1pos
  · rw [← hq0, froundPos_zero]
    exact froundPos_nonneg h0'
  · have hq2pos : 0 < q2 := lt_of_lt_of_le hq1pos h
    have hkm : ulpExp prec emin q1 ≤ ulpExp prec emin q2 := by
      unfold ulpExp
      exact max_le_max le_rfl (by have := qlog2_mono hq1pos h; omega)
    rcases eq_or_lt_of_le hkm with hkeq | hklt
    · -- same ulp exponent: monotonicity of rte at fixed scale
      unfold froundPos
      rw [← hkeq]
      have hpk : (0:ℚ) < pow2 (ulpExp prec emin q1) := pow2_pos _
      have hdiv : q1 / pow2 (ulpExp prec emin q1) ≤ q2 / pow2 (ulpExp prec emin q1) :=
        (div_le_div_right hpk).mpr h
      have := rte_mono hdiv
      exact mul_le_mul_of_nonneg_right (by exact_mod_cast this) (le_of_lt hpk)
    · -- the ulp exponent grew: q2's rounding lands in a strictly higher binade
      have hemax1 : emin ≤ ulpExp prec emin q1 := le_max_left _ _
      have hk2eq : ulpExp prec emin q2 = qlog2 q2 - (prec - 1) := by
        rcases le_total emin (qlog2 q2 - (prec - 1)) with hle | hle
        · exact max_eq_right hle
        · exfalso
          have hx : ulpExp prec emin q2 = emin := max_eq_left hle
          omega
      have hk1ge : qlog2 q1 - (prec - 1) ≤ ulpExp prec emin q1 := le_max_right _ _
      have he12 : qlog2 q1 < qlog2 q2 := by omega
      -- lower bound: froundPos q2 ≥ 2^(qlog2 q2)
      have hlow : (2:ℚ)^(qlog2 q2) ≤ froundPos prec emin q2 := by
        unfold froundPos
        rw [pow2_eq_zpow, hk2eq]
        have hx : (2:ℚ)^(prec - 1) ≤ q2 / (2:ℚ)^(qlog2 q2 - (prec-1)) := by
          rw [le_div_iff (zpow_pos (by norm_num) _)]
          rw [← zpow_add₀ (by norm_num : (2:ℚ) ≠ 0)]
          have hexp : prec - 1 + (qlog2 q2 - (prec - 1)) = qlog2 q2 := by ring
          rw [hexp]
          exact (qlog2_spec hq2pos).1
        have hx' : ((2^(prec-1).toNat : ℤ) : ℚ) ≤ q2 / (2:ℚ)^(qlog2 q2 - (prec-1)) := by
          rw [pow2_int_of_nonneg (by omega)]
          exact hx
        have hr := int_le_rte hx'
        calc (2:ℚ)^(qlog2 q2)
            = (2:ℚ)^(prec-1) * (2:ℚ)^(qlog2 q2 - (prec-1)) := by
              rw [← zpow_add₀ (by norm_num : (2:ℚ) ≠ 0)]
              ring_nf
        _ ≤ (rte (q2 / (2:ℚ)^(qlog2 q2 - (prec-1))) : ℚ) * (2:ℚ)^(qlog2 q2 - (prec-1)) := by
              apply mul_le_mul_of_nonneg_right _ (le_of_lt (zpow_pos (by norm_num) _))
              rw [← pow2_int_of_nonneg (by omega : (0:ℤ) ≤ prec - 1)]
              exact_mod_cast hr
      rcases le_or_lt (ulpExp prec emin q1) (qlog2 q1 + 1) with hcase | hcase
      · -- normal case: froundPos q1 ≤ 2^(qlog2 q1 + 1) ≤ 2^(qlog2 q2) ≤ froundPos q2
        have hup : froundPos prec emin q1 ≤ (2:ℚ)^(qlog2 q1 + 1) := by
          unfold froundPos
          rw [pow2_eq_zpow]
          have hx : q1 / (2:ℚ)^(ulpExp prec emin q1)
              ≤ ((2^(qlog2 q1 + 1 - ulpExp prec emin q1).toNat : ℤ) : ℚ) := by
            rw [pow2_int_of_nonneg (by omega)]
            rw [div_le_iff (zpow_pos (by norm_num) _)]
            rw [← zpow_add₀ (by norm_num : (2:ℚ) ≠ 0)]
            have hexp : qlog2 q1 + 1 - ulpExp prec emin q1 + ulpExp prec emin q1
                = qlog2 q1 + 1 := by ring
            rw [hexp]
            exact le_of_lt (qlog2_spec hq1pos).2
          have hr := rte_le_int hx
          calc (rte (q1 / (2:ℚ)^(ulpExp prec emin q1)) : ℚ) * (2:ℚ)^(ulpExp prec emin q1)
              ≤ ((2^(qlog2 q1 + 1 - ulpExp prec emin q1).toNat : ℤ) : ℚ)
                  * (2:ℚ)^(ulpExp prec emin q1) := by
                apply mul_le_mul_of_nonneg_right _ (le_of_lt (zpow_pos (by norm_num) _))
                exact_mod_cast hr
          _ = (2:ℚ)^(qlog2 q1 + 1) := by
                rw [pow2_int_of_nonneg (by omega)]
                rw [← zpow_add₀ (by norm_num : (2:ℚ) ≠ 0)]
                ring_nf
        have hmid : (2:ℚ)^(qlog2 q1 + 1) ≤ (2:ℚ)^(qlog2 q2) :=
          zpow_le_zpow_right₀ (by norm_num) (by omega)
        linarith
      · -- q1 is tiny relative to its ulp: it rounds to zero
        have hsmall : q1 / (2:ℚ)^(ulpExp prec emin q1) ≤ 1/2 := by
          have hq1lt : q1 < (2:ℚ)^(qlog2 q1 + 1) := (qlog2_spec hq1pos).2
          have hle : (2:ℚ)^(qlog2 q1 + 1) ≤ (2:ℚ)^(ulpExp prec emin q1 - 1) :=
            zpow_le_zpow_right₀ (by norm_num) (by omega)
          rw [div_le_iff (zpow_pos (by norm_num) _)]
          refine le_of_lt ?_
          calc q1 < (2:ℚ)^(qlog2 q1 + 1) := hq1lt
          _ ≤ (2:ℚ)^(ulpExp prec emin q1 - 1) := hle
          _ = 1/2 * (2:ℚ)^(ulpExp prec emin q1) := by
                rw [zpow_sub₀ (by norm_num : (2:ℚ) ≠ 0), zpow_one]
                ring
        have hzero : froundPos prec emin q1 = 0 := by
          unfold froundPos
          rw [pow2_eq_zpow]
          rw [rte_eq_zero (by positivity) hsmall]
          norm_num
        rw [hzero]
        exact froundPos_nonneg h0'

theorem fround_pow2 {prec emin E : ℤ} (hprec : 1 ≤ prec) (hE : emin ≤ E) :
    fround prec emin ((2:ℚ)^E) = (2:ℚ)^E := by
  have hpos : (0:ℚ) < (2:ℚ)^E := zpow_pos (by norm_num) E
  rw [fround_of_nonneg (le_of_lt hpos)]
  have hlog : qlog2 ((2:ℚ)^E) = E := by
    apply qlog2_eq_of le_rfl
    exact zpow_lt_zpow_right₀ (by norm_num) (by omega)
  have hk : ulpExp prec emin ((2:ℚ)^E) ≤ E := by
    unfold ulpExp
    rw [hlog]
    apply max_le <;> omega
  unfold froundPos
  rw [pow2_eq_zpow]
  have hx : (2:ℚ)^E / (2:ℚ)^(ulpExp prec emin ((2:ℚ)^E))
      = ((2^(E - ulpExp prec emin ((2:ℚ)^E)).toNat : ℤ) : ℚ) := by
    rw [pow2_int_of_nonneg (by omega)]
    rw [← zpow_sub₀ (by norm_num : (2:ℚ) ≠ 0)]
  rw [hx, rte_intCast]
  rw [pow2_int_of_nonneg (by omega)]
  rw [← zpow_add₀ (by norm_num : (2:ℚ) ≠ 0)]
  ring_nf

theorem qlog2_mul_zpow {x : ℚ} (hx : 0 < x) (c : ℤ) :
    qlog2 (x * (2:ℚ)^c) = qlog2 x + c := by
  apply qlog2_eq_of
  · rw [zpow_add₀ (by norm_num : (2:ℚ) ≠ 0)]
    exact mul_le_mul_of_nonneg_right (qlog2_spec hx).1 (le_of_lt (zpow_pos (by norm_num) c))
  · have he : qlog2 x + c + 1 = (qlog2 x + 1) + c := by ring
    rw [he, zpow_add₀ (by norm_num : (2:ℚ) ≠ 0)]
    exact mul_lt_mul_of_pos_right (qlog2_spec hx).2 (zpow_pos (by norm_num) c)

/-- A nonnegative significand below `2^prec`, scaled by a representable ulp,
is left unchanged by rounding. -/
theorem fround_exact {prec emin : ℤ} (hprec : 1 ≤ prec) {n k : ℤ}
    (hn0 : 0 ≤ n) (hn : (n:ℚ) < (2:ℚ)^prec) (hk : emin ≤ k) :
    fround prec emin ((n:ℚ) * (2:ℚ)^k) = (n:ℚ) * (2:ℚ)^k := by
  have hkpos : (0:ℚ) < (2:ℚ)^k := zpow_pos (by norm_num) k
  rcases eq_or_lt_of_le hn0 with h0 | hpos
  · rw [← h0]
    push_cast
    rw [zero_mul, fround_of_nonneg le_rfl, froundPos_zero]
  · have hxpos : (0:ℚ) < (n:ℚ) := by exact_mod_cast hpos
    have hprod : (0:ℚ) < (n:ℚ) * (2:ℚ)^k := mul_pos hxpos hkpos
    have he : qlog2 ((n:ℚ) * (2:ℚ)^k) = qlog2 (n:ℚ) + k := qlog2_mul_zpow hxpos k
    have heb : qlog2 (n:ℚ) ≤ prec - 1 := by
      have h1 : (2:ℚ)^(qlog2 (n:ℚ)) < (2:ℚ)^prec :=
        lt_of_le_of_lt (qlog2_spec hxpos).1 hn
      have := (zpow_lt_zpow_iff_right₀ (by norm_num : (1:ℚ) < 2)).mp h1
      omega
    have hu : ulpExp prec emin ((n:ℚ) * (2:ℚ)^k) ≤ k := by
      unfold ulpExp
      rw [he]
      apply max_le <;> omega
    have huge : emin ≤ ulpExp prec emin ((n:ℚ) * (2:ℚ)^k) := le_max_left _ _
    rw [fround_of_nonneg (le_of_lt hprod)]
    unfold froundPos
    rw [pow2_eq_zpow]
    set u := ulpExp prec emin ((n:ℚ) * (2:ℚ)^k) with hudef
    have hm : ((k - u).toNat : ℤ) = k - u := Int.toNat_of_nonneg (by omega)
    have hcast : ((n * 2^(k - u).toNat : ℤ) : ℚ) = (n:ℚ) * (2:ℚ)^(k - u) := by
      push_cast
      rw [← zpow_natCast (2:ℚ) (k - u).toNat, hm]
    have hq : (n:ℚ) * (2:ℚ)^k / (2:ℚ)^u = ((n * 2^(k - u).toNat : ℤ) : ℚ) := by
      rw [hcast, div_eq_iff (ne_of_gt (zpow_pos (by norm_num) u)), mul_assoc,
        ← zpow_add₀ (by norm_num : (2:ℚ) ≠ 0)]
      have he2 : k - u + u = k := by ring
      rw [he2]
    rw [hq, rte_intCast, hcast, mul_assoc, ← zpow_add₀ (by norm_num : (2:ℚ) ≠ 0)]
    have he2 : k - u + u = k := by ring
    rw [he2]

/-- Rounding is idempotent on nonnegative values. -/
theorem fround_idem {prec emin : ℤ} (hprec : 1 ≤ prec) {q : ℚ} (hq : 0 ≤ q) :
    fround prec emin (fround prec emin q) = fround prec emin q := by
  rcases eq_or_lt_of_le hq with h0 | hpos
  · rw [← h0, fround_of_nonneg le_rfl, froundPos_zero, fround_of_nonneg le_rfl,
      froundPos_zero]
  · have hy : fround prec emin q
        = (rte (q / (2:ℚ)^(ulpExp prec emin q)) : ℚ) * (2:ℚ)^(ulpExp prec emin q) := by
      rw [fround_of_nonneg hq]
      unfold froundPos
      rw [pow2_eq_zpow]
    have hupos : (0:ℚ) < (2:ℚ)^(ulpExp prec emin q) := zpow_pos (by norm_num) _
    have hm0 : 0 ≤ rte (q / (2:ℚ)^(ulpExp prec emin q)) :=
      rte_nonneg (le_of_lt (div_pos hpos hupos))
    have hmle : rte (q / (2:ℚ)^(ulpExp prec emin q)) ≤ 2^prec.toNat := by
      apply rte_le_int
      rw [pow2_int_of_nonneg (by omega)]
      rw [div_le_iff hupos]
      rw [← zpow_add₀ (by norm_num : (2:ℚ) ≠ 0)]
      have hlt : q < (2:ℚ)^(qlog2 q + 1) := (qlog2_spec hpos).2
      have hle : qlog2 q + 1 ≤ prec + ulpExp prec emin q := by
        have := le_max_right emin (qlog2 q - (prec - 1))
        unfold ulpExp
        omega
      exact le_of_lt (lt_of_lt_of_le hlt (zpow_le_zpow_right₀ (by norm_num) hle))
    have huk : emin ≤ ulpExp prec emin q := le_max_left _ _
    rcases eq_or_lt_of_le hmle with hmeq | hmlt
    · -- the significand rounded up to 2^prec: the value is a power of two
      have hyp : fround prec emin q = (2:ℚ)^(prec + ulpExp prec emin q) := by
        rw [hy, hmeq]
        rw [show ((2^prec.toNat : ℤ) : ℚ) = (2:ℚ)^prec from pow2_int_of_nonneg (by omega)]
        rw [← zpow_add₀ (by norm_num : (2:ℚ) ≠ 0)]
      rw [hyp]
      exact fround_pow2 hprec (by omega)
    · have hnlt : ((rte (q / (2:ℚ)^(ulpExp prec emin q)) : ℤ) : ℚ) < (2:ℚ)^prec := by
        rw [← pow2_int_of_nonneg (by omega : (0:ℤ) ≤ prec)]
        exact_mod_cast hmlt
      rw [hy]
      exact fround_exact hprec hm0 hnlt huk

theorem fround_neg (prec emin : ℤ) (q : ℚ) :
    fround prec emin (-q) = -(fround prec emin q) := by
  unfold fround
  rcases lt_trichotomy q 0 with h | h | h
  · rw [if_pos (by linarith : q < 0), if_neg (by push_neg; linarith : ¬ (-q < 0)), neg_neg]
  · rw [h]
    norm_num [froundPos_zero]
  · rw [if_pos (by linarith : -q < 0), if_neg (by push_neg; linarith : ¬ (q < 0)), neg_neg]

/-- Rounding is idempotent. -/
theorem fround_idem_all {prec emin : ℤ} (hprec : 1 ≤ prec) (q : ℚ) :
    fround prec emin (fround prec emin q) = fround prec emin q := by
  rcases le_or_lt 0 q with h | h
  · exact fround_idem hprec h
  · have hpos : (0:ℚ) ≤ -q := by linarith
    calc fround prec emin (fround prec emin q)
        = fround prec emin (fround prec emin (-(-q))) := by rw [neg_neg]
    _ = fround prec emin (-(fround prec emin (-q))) := by rw [fround_neg]
    _ = -(fround prec emin (fround prec emin (-q))) := by rw [fround_neg]
    _ = -(fround prec emin (-q)) := by rw [fround_idem hprec hpos]
    _ = fround prec emin q := by rw [fround_neg, neg_neg]

/-- C1: for every fraction region and positive frame dimensions,
`SubImage.calculate_pixels` computes each pixel coordinate as
`floor(f32(fraction) * f32(dimension) + f32(0.5))` in single-precision
arithmetic, with the vertical swap (fraction `bottom` gives pixel `top`,
fraction `top` gives pixel `bottom`); and on resolution `(800, 600)` with
region `{left 0, top 1, right 1/2, bottom 1/2}` it returns the pixel region
`{left 0, top 300, right 400, bottom 600}`. -/
theorem C1_region_to_pixels_formula :
    (∀ (region : Region) (width height : ℤ), 0 < width → 0 < height →
      calculate_pixels region width height =
        { left := ⌊f32round (f32round (f32round region.left * f32round (width:ℚ)) + f32round (1/2))⌋
          top := ⌊f32round (f32round (f32round region.bottom * f32round (height:ℚ)) + f32round (1/2))⌋
          right := ⌊f32round (f32round (f32round region.right * f32round (width:ℚ)) + f32round (1/2))⌋
          bottom := ⌊f32round (f32round (f32round region.top * f32round (height:ℚ)) + f32round (1/2))⌋ }) ∧
    calculate_pixels ⟨0, 1, 1/2, 1/2⟩ 800 600 = ⟨0, 300, 400, 600⟩ := by
  constructor
  · intro region width height _ _
    have h12 : f32round (1/2) = 1/2 := by decide
    rw [h12]
    rfl
  · decide

/-- Witness for C1 at the concrete scenario of the claim. -/
theorem C1_region_to_pixels_formula_witness :
    (0:ℤ) < 800 ∧ (0:ℤ) < 600 ∧
    calculate_pixels ⟨0, 1, 1/2, 1/2⟩ 800 600 =
      { left := ⌊f32round (f32round (f32round (0:ℚ) * f32round ((800:ℤ):ℚ)) + f32round (1/2))⌋
        top := ⌊f32round (f32round (f32round (1/2:ℚ) * f32round ((600:ℤ):ℚ)) + f32round (1/2))⌋
        right := ⌊f32round (f32round (f32round (1/2:ℚ) * f32round ((800:ℤ):ℚ)) + f32round (1/2))⌋
        bottom := ⌊f32round (f32round (f32round (1:ℚ) * f32round ((600:ℤ):ℚ)) + f32round (1/2))⌋ } :=
  ⟨by decide, by decide,
    C1_region_to_pixels_formula.1 ⟨0, 1, 1/2, 1/2⟩ 800 600 (by decide) (by decide)⟩

/-- C2: for every pixel region and positive frame dimensions,
`Crop.calculate_borders` computes each fraction as
`f32((f32(pixel) + f32(0.5)) / f32(dimension))` — the half-pixel offset is
added to the integer before dividing — with the vertical swap (pixel `top`
gives fraction `bottom` and pixel `bottom` gives fraction `top`); and the
transform is not an exact inverse of `calculate_pixels`: on the pixel region
`{0, 300, 400, 600}` at `(800, 600)` the round trip through
`calculate_borders` and back moves the left edge. -/
theorem C2_pixels_to_region_formula :
    (∀ (p : PixelRegion) (width height : ℤ), 0 < width → 0 < height →
      calculate_borders p width height =
        { left := f32round (f32round (f32round (p.left:ℚ) + f32round (1/2)) / f32round (width:ℚ))
          top := f32round (f32round (f32round (p.bottom:ℚ) + f32round (1/2)) / f32round (height:ℚ))
          right := f32round (f32round (f32round (p.right:ℚ) + f32round (1/2)) / f32round (width:ℚ))
          bottom := f32round (f32round (f32round (p.top:ℚ) + f32round (1/2)) / f32round (height:ℚ)) }) ∧
    calculate_pixels (calculate_borders ⟨0, 300, 400, 600⟩ 800 600) 800 600 ≠
      ⟨0, 300, 400, 600⟩ := by
  constructor
  · intro p width height _ _
    have h12 : f32round (1/2) = 1/2 := by decide
    rw [h12]
    unfold calculate_borders border_coordinate divF32 addF32
    congr 1
    all_goals
      simp only [f32round]
      exact fround_idem_all (by norm_num) _
  · decide

/-- Witness for C2 at the pixel region of the claim's round-trip example. -/
theorem C2_pixels_to_region_formula_witness :
    (0:ℤ) < 800 ∧ (0:ℤ) < 600 ∧
    calculate_borders ⟨0, 300, 400, 600⟩ 800 600 =
      { left := f32round (f32round (f32round ((0:ℤ):ℚ) + f32round (1/2)) / f32round ((800:ℤ):ℚ))
        top := f32round (f32round (f32round ((600:ℤ):ℚ) + f32round (1/2)) / f32round ((600:ℤ):ℚ))
        right := f32round (f32round (f32round ((400:ℤ):ℚ) + f32round (1/2)) / f32round ((800:ℤ):ℚ))
        bottom := f32round (f32round (f32round ((300:ℤ):ℚ) + f32round (1/2)) / f32round ((600:ℤ):ℚ)) } :=
  ⟨by decide, by decide,
    C2_pixels_to_region_formula.1 ⟨0, 300, 400, 600⟩ 800 600 (by decide) (by decide)⟩

theorem scale_to_pixel_mono {a b : ℚ} {d : ℤ} (hd : 0 ≤ d) (ha : 0 ≤ a)
    (hab : a ≤ b) : scale_to_pixel a d ≤ scale_to_pixel b d := by
  unfold scale_to_pixel addF32 mulF32
  apply Int.floor_le_floor
  simp only [f32round]
  have hfa : 0 ≤ fround 24 (-149) a := fround_nonneg ha
  have hfd : 0 ≤ fround 24 (-149) ((d:ℤ):ℚ) := fround_nonneg (by exact_mod_cast hd)
  have h1 : fround 24 (-149) a ≤ fround 24 (-149) b := fround_mono (by norm_num) ha hab
  have h2 : fround 24 (-149) a * fround 24 (-149) ((d:ℤ):ℚ)
      ≤ fround 24 (-149) b * fround 24 (-149) ((d:ℤ):ℚ) :=
    mul_le_mul_of_nonneg_right h1 hfd
  have h3 : fround 24 (-149) (fround 24 (-149) a * fround 24 (-149) ((d:ℤ):ℚ))
      ≤ fround 24 (-149) (fround 24 (-149) b * fround 24 (-149) ((d:ℤ):ℚ)) :=
    fround_mono (by norm_num) (mul_nonneg hfa hfd) h2
  apply fround_mono (by norm_num)
  · have := @fround_nonneg 24 (-149) _ (mul_nonneg hfa hfd)
    linarith
  · linarith

/-- C8 counterexample: the region `{left 0, top 1, right 1/2, bottom 1/2}`
satisfies all of the claim's hypotheses at resolution `800 × 600`, yet
`calculate_pixels` puts `bottom = 600` strictly above `top = 300`, so the
claimed `pixel.bottom ≤ pixel.top` (nonnegative `top - bottom`) is false. -/
theorem C8_cex :
    ((0:ℚ) ≤ 0 ∧ (0:ℚ) < 1/2 ∧ (1/2:ℚ) ≤ 1 ∧
     (0:ℚ) ≤ 1/2 ∧ (1/2:ℚ) < 1 ∧ (1:ℚ) ≤ 1 ∧ (0:ℤ) < 800 ∧ (0:ℤ) < 600) ∧
    ¬ ((calculate_pixels ⟨0, 1, 1/2, 1/2⟩ 800 600).bottom ≤
       (calculate_pixels ⟨0, 1, 1/2, 1/2⟩ 800 600).top) := by
  decide

/-- C8 amended: for positive dimensions and a well-formed region
(`0 ≤ left < right ≤ 1`, `0 ≤ bottom < top ≤ 1`), `calculate_pixels` yields
`pixel.left ≤ pixel.right` and `pixel.top ≤ pixel.bottom` — the vertical
swap sends the larger fraction (`top`) to the larger row index (`bottom`),
so the component's own `height = top - bottom` is `≤ 0`, not `≥ 0`. -/
theorem C8_pixel_ordering_amended :
    ∀ (region : Region) (width height : ℤ), 0 < width → 0 < height →
    0 ≤ region.left → region.left < region.right → region.right ≤ 1 →
    0 ≤ region.bottom → region.bottom < region.top → region.top ≤ 1 →
    (calculate_pixels region width height).left ≤
      (calculate_pixels region width height).right ∧
    (calculate_pixels region width height).top ≤
      (calculate_pixels region width height).bottom := by
  intro region width height hw hh hl hlr hr hb hbt ht
  constructor
  · exact scale_to_pixel_mono (by omega) hl (le_of_lt hlr)
  · exact scale_to_pixel_mono (by omega) hb (le_of_lt hbt)

/-- Witness for C8 amended at the claim's own concrete scenario. -/
theorem C8_pixel_ordering_amended_witness :
    (calculate_pixels ⟨0, 1, 1/2, 1/2⟩ 800 600).left ≤
      (calculate_pixels ⟨0, 1, 1/2, 1/2⟩ 800 600).right ∧
    (calculate_pixels ⟨0, 1, 1/2, 1/2⟩ 800 600).top ≤
      (calculate_pixels ⟨0, 1, 1/2, 1/2⟩ 800 600).bottom :=
  C8_pixel_ordering_amended ⟨0, 1, 1/2, 1/2⟩ 800 600 (by decide) (by decide)
    (by decide) (by decide) (by decide) (by decide) (by decide) (by decide)

/-- C9 counterexample: `SubImage.__init__` accepts the malformed region
`{left 1/2, top 1, right 1/5, bottom 0}` (right < left) at resolution
`100 × 100` without any failure and silently derives a pixel rectangle of
negative width — the claimed fail-fast behaviour does not exist. -/
theorem C9_cex :
    (mkSubImage ⟨1/2, 1, 1/5, 0⟩ 100 100).region.right <
      (mkSubImage ⟨1/2, 1, 1/5, 0⟩ 100 100).region.left ∧
    (mkSubImage ⟨1/2, 1, 1/5, 0⟩ 100 100).width < 0 := by
  decide

/-- C9 amended: construction performs no validation; for the malformed
region `{left 1/2, top 1, right 1/5, bottom 0}` at `100 × 100` it silently
produces `width = -30` and `height = -100` (both negative), which downstream
samplers receive unchecked. -/
theorem C9_no_validation_amended :
    (mkSubImage ⟨1/2, 1, 1/5, 0⟩ 100 100).width = -30 ∧
    (mkSubImage ⟨1/2, 1, 1/5, 0⟩ 100 100).height = -100 := by
  decide

/-- C4 counterexample: with `low = 5`, `high = 11`, `length = 5` the claim's
condition `high - 1 - length < low + 1` holds (5 < 6), yet the sampler does
not raise `SubtaskTooSmall`: its guard only checks `high - 1 - length < 0`,
and the subsequent empty-range `randint(6, 5)` raises `ValueError` instead. -/
theorem C4_cex :
    ¬ (get_random_interval_within_boundaries 5 11 5 0 =
        Except.error SamplerError.subtaskTooSmall ↔ 11 - 1 - 5 < 5 + 1) := by
  decide

/-- C4 amended: `_get_random_interval_within_boundaries` raises
`SubtaskTooSmall` exactly when `high - 1 - length < 0` (the lower bound is
not consulted); in the remaining gap `0 ≤ high - 1 - length < low + 1` it
fails with `randint`'s `ValueError` instead; and the claim's concrete
scenario (pixel region `{left 0, top 100, right 10, bottom 0}`, crop size
`(20, 5)`) does raise `SubtaskTooSmall` for every draw. -/
theorem C4_subtask_too_small_amended :
    (∀ begin_ end_ interval_length r : ℤ,
      (get_random_interval_within_boundaries begin_ end_ interval_length r =
        Except.error SamplerError.subtaskTooSmall ↔
        end_ - 1 - interval_length < 0)) ∧
    (∀ begin_ end_ interval_length r : ℤ,
      (get_random_interval_within_boundaries begin_ end_ interval_length r =
        Except.error SamplerError.valueError ↔
        (0 ≤ end_ - 1 - interval_length ∧
          end_ - 1 - interval_length < begin_ + 1))) ∧
    (∀ rx ry : ℤ,
      generate_single_random_crop_data_old
        ⟨⟨0, 0, 0, 0⟩, 800, 600, ⟨0, 100, 10, 0⟩, 10, 100⟩ 20 5 9 rx ry =
        Except.error SamplerError.subtaskTooSmall) := by
  refine ⟨?_, ?_, ?_⟩
  · intro begin_ end_ interval_length r
    unfold get_random_interval_within_boundaries randint
    split_ifs with h1 h2
    · simp [h1]
    · simp
      omega
    · simp
      omega
  · intro begin_ end_ interval_length r
    unfold get_random_interval_within_boundaries randint
    split_ifs with h1 h2
    · simp
      omega
    · simp
      omega
    · simp
      omega
  · intro rx ry
    unfold generate_single_random_crop_data_old
    norm_num [get_random_interval_within_boundaries]

theorem get_random_interval_ok {begin_ end_ interval_length r : ℤ}
    {p : ℤ × ℤ}
    (h : get_random_interval_within_boundaries begin_ end_ interval_length r =
      Except.ok p) :
    p.2 = p.1 + interval_length := by
  unfold get_random_interval_within_boundaries at h
  split at h
  · cases h
  · split at h
    · cases h
    · cases h
      rfl

/-- C10: whenever the legacy pixel-space sampler returns a crop, the crop's
pixel region has exactly the requested dimensions:
`right - left = crop_size_x` and `top - bottom = crop_size_y`. -/
theorem C10_old_sampler_exact_size :
    ∀ (s : SubImage) (w h id_ rx ry : ℤ) (c : Crop),
      generate_single_random_crop_data_old s w h id_ rx ry = Except.ok c →
      c.pixel_region.right - c.pixel_region.left = w ∧
      c.pixel_region.top - c.pixel_region.bottom = h := by
  intro s w h id_ rx ry c hok
  unfold generate_single_random_crop_data_old at hok
  cases hx : get_random_interval_within_boundaries s.pixel_region.left
      s.pixel_region.right w rx with
  | error e => rw [hx] at hok; cases hok
  | ok ch =>
    rw [hx] at hok
    cases hy : get_random_interval_within_boundaries s.pixel_region.bottom
        s.pixel_region.top h ry with
    | error e => rw [hy] at hok; cases hok
    | ok cv =>
      rw [hy] at hok
      cases hok
      have h1 := get_random_interval_ok hx
      have h2 := get_random_interval_ok hy
      unfold create_from_pixel_region
      constructor
      · simpa using by omega
      · simpa using by omega

/-- Witness for C10: a successful concrete run of the legacy sampler with
requested size `(8, 8)` returns a crop of exactly that pixel size. -/
theorem C10_old_sampler_exact_size_witness :
    c10crop.pixel_region.right - c10crop.pixel_region.left = 8 ∧
    c10crop.pixel_region.top - c10crop.pixel_region.bottom = 8 :=
  C10_old_sampler_exact_size c10subimage 8 8 3 0 0 c10crop (by decide)

theorem randValue_bounds {lo hi : ℤ} (r : ℤ) (h : lo ≤ hi) :
    lo ≤ randValue lo hi r ∧ randValue lo hi r ≤ hi := by
  unfold randValue
  have h1 := Int.emod_nonneg (r - lo) (by omega : hi - lo + 1 ≠ 0)
  have h2 := Int.emod_lt_of_pos (r - lo) (by omega : 0 < hi - lo + 1)
  constructor <;> [omega; omega]

theorem mulF64_big {res : ℤ} (hres : 1 ≤ res) {rel : ℚ} (hrel : 8 ≤ rel) :
    ¬ (mulF64 rel (f64round ((res:ℤ):ℚ)) < 8) := by
  have hR : (1:ℚ) ≤ f64round ((res:ℤ):ℚ) := by
    have h1 : f64round 1 = 1 := by decide
    calc (1:ℚ) = f64round 1 := h1.symm
    _ ≤ f64round ((res:ℤ):ℚ) := by
        simp only [f64round]
        exact fround_mono (by norm_num) (by norm_num) (by exact_mod_cast hres)
  have hprod : (8:ℚ) ≤ rel * f64round ((res:ℤ):ℚ) := by nlinarith
  have h8 : f64round 8 = 8 := by decide
  push_neg
  calc (8:ℚ) = f64round 8 := h8.symm
  _ ≤ f64round (rel * f64round ((res:ℤ):ℚ)) := by
      simp only [f64round]
      exact fround_mono (by norm_num) (by norm_num) hprod
  _ = mulF64 rel (f64round ((res:ℤ):ℚ)) := rfl

theorem adjustRel_progress {res : ℤ} (hres : 1 ≤ res) :
    ∀ (n : ℕ) (rel : ℚ), 0 ≤ rel → 8 ≤ rel + (99/10000) * n →
    ¬ (mulF64 (adjustRel res n rel) (f64round ((res:ℤ):ℚ)) < 8) := by
  intro n
  induction n with
  | zero =>
    intro rel h0 h8
    simp only [Nat.cast_zero, mul_zero, add_zero] at h8
    simpa only [adjustRel] using mulF64_big hres h8
  | succ k ih =>
    intro rel h0 h8
    unfold adjustRel
    by_cases hc : mulF64 rel (f64round ((res:ℤ):ℚ)) < 8
    · rw [if_pos hc]
      have hlt : rel < 8 := by
        by_contra hge
        push_neg at hge
        exact mulF64_big hres hge hc
      have hc01a : (1:ℚ)/100 ≤ f64round (1/100) := by decide
      have hc01b : f64round (1/100) ≤ 1/50 := by decide
      have hsum0 : (0:ℚ) ≤ rel + f64round (1/100) := by linarith
      have hsumE : rel + f64round (1/100) ≤ (2:ℚ)^(4:ℤ) := by
        have : ((2:ℚ)^(4:ℤ)) = 16 := by norm_num
        rw [this]
        linarith
      have herr : |f64round (rel + f64round (1/100)) - (rel + f64round (1/100))|
          ≤ (2:ℚ)^((4:ℤ) - 53) := by
        simp only [f64round]
        exact fround_err hsum0 hsumE (by norm_num)
      have h49 : (2:ℚ)^((4:ℤ) - 53) ≤ 1/10000 := by
        norm_num [zpow_neg]
      have hstep : rel + 99/10000 ≤ addF64 rel (f64round (1/100)) := by
        unfold addF64
        have h1 := (abs_le.mp herr).1
        simp only [f64round] at h1 hc01a hc01b h49 ⊢
        linarith
      have hstep0 : (0:ℚ) ≤ addF64 rel (f64round (1/100)) := by
        unfold addF64
        simp only [f64round]
        exact fround_nonneg hsum0
      apply ih _ hstep0
      have hcast : ((k + 1 : ℕ) : ℚ) = (k:ℚ) + 1 := by push_cast; ring
      rw [hcast] at h8
      linarith
    · rw [if_neg hc]
      exact hc

theorem adjustRel_of_done {res : ℤ} {rel : ℚ}
    (h : ¬ (mulF64 rel (f64round ((res:ℤ):ℚ)) < 8)) (n : ℕ) :
    adjustRel res n rel = rel := by
  cases n with
  | zero => rfl
  | succ m =>
    unfold adjustRel
    rw [if_neg h]

theorem adjustRel_succ (res : ℤ) (fuel : ℕ) (rel : ℚ) :
    adjustRel res (fuel+1) rel =
      if mulF64 rel (f64round ((res:ℤ):ℚ)) < 8
      then adjustRel res fuel (addF64 rel (f64round (1/100)))
      else rel := rfl

theorem adjustRel_stable {res : ℤ} {rel : ℚ} {N : ℕ}
    (h : ¬ (mulF64 (adjustRel res N rel) (f64round ((res:ℤ):ℚ)) < 8)) (m : ℕ) :
    adjustRel res (N + m) rel = adjustRel res N rel := by
  induction N generalizing rel with
  | zero =>
    simp only [adjustRel] at h
    simpa using adjustRel_of_done h m
  | succ k ih =>
    have hs : k + 1 + m = (k + m) + 1 := by omega
    rw [hs, adjustRel_succ, adjustRel_succ]
    by_cases hc : mulF64 rel (f64round ((res:ℤ):ℚ)) < 8
    · rw [if_pos hc, if_pos hc]
      apply ih
      have hr : adjustRel res (k+1) rel
          = adjustRel res k (addF64 rel (f64round (1/100))) := by
        rw [adjustRel_succ, if_pos hc]
      rwa [hr] at h
    · rw [if_neg hc, if_neg hc]

/-- C7: for every positive frame dimension the relative-size adjustment loop
terminates — running the fuelled model one step beyond 2000 iterations
changes nothing, i.e. the `while` condition has become false within the
fuel — and the final relative size satisfies
`relative_size * resolution ≥ 8` as the loop's own double-precision guard
computes it (`mulF64` of the size and the dimension converted to double). -/
theorem C7_adjust_loop_terminates :
    ∀ res : ℤ, 1 ≤ res →
      adjustRel res 2001 (f64round (1/10)) = adjustRel res 2000 (f64round (1/10)) ∧
      8 ≤ mulF64 (adjustRel res 2000 (f64round (1/10))) (f64round ((res:ℤ):ℚ)) := by
  intro res hres
  have h0 : (0:ℚ) ≤ f64round (1/10) := by decide
  have hdone : ¬ (mulF64 (adjustRel res 2000 (f64round (1/10)))
      (f64round ((res:ℤ):ℚ)) < 8) := by
    apply adjustRel_progress hres 2000 _ h0
    have hc : ((2000:ℕ):ℚ) = 2000 := by norm_num
    rw [hc]
    linarith
  constructor
  · simpa using adjustRel_stable hdone 1
  · push_neg at hdone
    exact hdone

/-- Witness for C7 at resolution 800. -/
theorem C7_adjust_loop_terminates_witness :
    adjustRel 800 2001 (f64round (1/10)) = adjustRel 800 2000 (f64round (1/10)) ∧
    8 ≤ mulF64 (adjustRel 800 2000 (f64round (1/10))) (f64round ((800:ℤ):ℚ)) :=
  C7_adjust_loop_terminates 800 (by norm_num)

theorem generate_ok_spec {s : SubImage} {id_ rx ry : ℤ} {c : Crop}
    (hok : generate_single_random_crop_data s id_ rx ry = Except.ok c) :
    xLowBound s ≤ xHighBound s ∧ yLowBound s ≤ yHighBound s ∧
    c = cropFromFractions s id_
      (divF64 ((randValue (xLowBound s) (xHighBound s) rx : ℤ) : ℚ) 100)
      (pyRound2 (addF64
        (divF64 ((randValue (xLowBound s) (xHighBound s) rx : ℤ) : ℚ) 100)
        (relSizeX s)))
      (divF64 ((randValue (yLowBound s) (yHighBound s) ry : ℤ) : ℚ) 100)
      (pyRound2 (addF64
        (divF64 ((randValue (yLowBound s) (yHighBound s) ry : ℤ) : ℚ) 100)
        (relSizeY s))) := by
  unfold generate_single_random_crop_data at hok
  split at hok
  · cases hok
  · rename_i kx hkx
    split at hok
    · cases hok
    · rename_i ky hky
      cases hok
      unfold randint at hkx hky
      by_cases h1 : xHighBound s < xLowBound s
      · rw [if_pos h1] at hkx
        cases hkx
      · rw [if_neg h1] at hkx
        by_cases h2 : yHighBound s < yLowBound s
        · rw [if_pos h2] at hky
          cases hky
        · rw [if_neg h2] at hky
          cases hkx
          cases hky
          exact ⟨by omega, by omega, rfl⟩

/-- C5 counterexample: for the subimage with region
`{left 0, top 0, right 1, bottom 1}` at `800 × 600` the fraction-space
sampler succeeds and draws `y_min = 1/2` (stored in `crop_region.top`), but
`1/2` does not lie within the claim's interval
`[region.bottom, region.top - relative_size_y] = [1, 0 - 0.1]`: the code
draws the vertical coordinate between `region.top` and
`region.bottom - relative_size_y`, not between `region.bottom` and
`region.top - relative_size_y`. -/
theorem C5_cex :
    generate_single_random_crop_data c5subimage 1 60 50 = Except.ok c5crop ∧
    c5crop.crop_region.top = 1/2 ∧
    ¬ (c5subimage.region.bottom ≤ c5crop.crop_region.top ∧
       c5crop.crop_region.top ≤ c5subimage.region.top - relSizeY c5subimage) := by
  decide

/-- C5 amended: whenever the fraction-space sampler returns a crop, `x_min`
(stored in `crop_region.left`) is an integer number of hundredths drawn
between `int(region.left * 100)` and `int(round((region.right -
relative_size_x) * 100, 2))` and converted to a double, with
`x_max = round(x_min + relative_size_x, 2)`; the vertical draw swaps the
region's bounds: `y_min` (stored in `crop_region.top`) is drawn between
`int(region.top * 100)` and `int(round((region.bottom - relative_size_y) *
100, 2))`, with `y_max = round(y_min + relative_size_y, 2)`.  (In
particular `x_min` may undershoot `region.left` by up to one hundredth when
`region.left * 100` is not an integer.) -/
theorem C5_fraction_bounds_amended :
    ∀ (s : SubImage) (id_ rx ry : ℤ) (c : Crop),
      generate_single_random_crop_data s id_ rx ry = Except.ok c →
      (xLowBound s ≤ randValue (xLowBound s) (xHighBound s) rx ∧
       randValue (xLowBound s) (xHighBound s) rx ≤ xHighBound s ∧
       c.crop_region.left =
         divF64 ((randValue (xLowBound s) (xHighBound s) rx : ℤ) : ℚ) 100 ∧
       c.crop_region.right = pyRound2 (addF64 c.crop_region.left (relSizeX s))) ∧
      (yLowBound s ≤ randValue (yLowBound s) (yHighBound s) ry ∧
       randValue (yLowBound s) (yHighBound s) ry ≤ yHighBound s ∧
       c.crop_region.top =
         divF64 ((randValue (yLowBound s) (yHighBound s) ry : ℤ) : ℚ) 100 ∧
       c.crop_region.bottom = pyRound2 (addF64 c.crop_region.top (relSizeY s))) := by
  intro s id_ rx ry c hok
  obtain ⟨hx, hy, hc⟩ := generate_ok_spec hok
  subst hc
  have hbx := randValue_bounds rx hx
  have hby := randValue_bounds ry hy
  exact ⟨⟨hbx.1, hbx.2, rfl, rfl⟩, ⟨hby.1, hby.2, rfl, rfl⟩⟩

/-- Witness for C5 amended at the counterexample's concrete run. -/
theorem C5_fraction_bounds_amended_witness :
    (xLowBound c5subimage ≤ randValue (xLowBound c5subimage) (xHighBound c5subimage) 60 ∧
     randValue (xLowBound c5subimage) (xHighBound c5subimage) 60 ≤ xHighBound c5subimage ∧
     c5crop.crop_region.left =
       divF64 ((randValue (xLowBound c5subimage) (xHighBound c5subimage) 60 : ℤ) : ℚ) 100 ∧
     c5crop.crop_region.right =
       pyRound2 (addF64 c5crop.crop_region.left (relSizeX c5subimage))) ∧
    (yLowBound c5subimage ≤ randValue (yLowBound c5subimage) (yHighBound c5subimage) 50 ∧
     randValue (yLowBound c5subimage) (yHighBound c5subimage) 50 ≤ yHighBound c5subimage ∧
     c5crop.crop_region.top =
       divF64 ((randValue (yLowBound c5subimage) (yHighBound c5subimage) 50 : ℤ) : ℚ) 100 ∧
     c5crop.crop_region.bottom =
       pyRound2 (addF64 c5crop.crop_region.top (relSizeY c5subimage))) :=
  C5_fraction_bounds_amended c5subimage 1 60 50 c5crop (by decide)

/-- C6 counterexample: for the subimage with region
`{left 1/2, top 0, right 1, bottom 1}` at `800 × 600` the sampler succeeds
with `x_max = 0.7` (as a double) and produces `pixel_region.right = 560 =
floor(f32(800) * f32(x_max))` with no origin subtraction, whereas the
claimed buffer-relative value would be `560 - floor(f32(region.left) *
f32(800)) = 560 - 400 = 160`. -/
theorem C6_cex :
    generate_single_random_crop_data c6subimage 2 60 50 = Except.ok c6crop ∧
    c6crop.pixel_region.right = 560 ∧
    ¬ (c6crop.pixel_region.right =
        ⌊mulF32 (f32round (c6subimage.resolutionX : ℚ)) (f32round c6crop.crop_region.right)⌋ -
        ⌊mulF32 (f32round c6subimage.region.left) (f32round (c6subimage.resolutionX : ℚ))⌋) := by
  decide

/-- C6 amended: whenever the fraction-space sampler returns a crop, the
pixel coordinates are computed by `floor(f32 product)` projections with no
half-pixel offset; `left`, `top` and `bottom` subtract the subimage's own
projected origin (`left` as value minus origin, `top` and `bottom` as the
projected vertical origin minus the value), but `right` is the absolute
projection `floor(f32(width) * f32(x_max))` with no origin subtraction. -/
theorem C6_pixel_projection_amended :
    ∀ (s : SubImage) (id_ rx ry : ℤ) (c : Crop),
      generate_single_random_crop_data s id_ rx ry = Except.ok c →
      c.pixel_region.left =
        ⌊mulF32 (f32round (s.resolutionX : ℚ)) (f32round c.crop_region.left)⌋ -
        ⌊mulF32 (f32round s.region.left) (f32round (s.resolutionX : ℚ))⌋ ∧
      c.pixel_region.right =
        ⌊mulF32 (f32round (s.resolutionX : ℚ)) (f32round c.crop_region.right)⌋ ∧
      c.pixel_region.top =
        ⌊mulF32 (f32round s.region.bottom) (f32round (s.resolutionY : ℚ))⌋ -
        ⌊mulF32 (f32round (s.resolutionY : ℚ)) (f32round c.crop_region.bottom)⌋ ∧
      c.pixel_region.bottom =
        ⌊mulF32 (f32round s.region.bottom) (f32round (s.resolutionY : ℚ))⌋ -
        ⌊mulF32 (f32round (s.resolutionY : ℚ)) (f32round c.crop_region.top)⌋ := by
  intro s id_ rx ry c hok
  obtain ⟨_, _, hc⟩ := generate_ok_spec hok
  subst hc
  exact ⟨rfl, rfl, rfl, rfl⟩

/-- Witness for C6 amended at the counterexample's concrete run. -/
theorem C6_pixel_projection_amended_witness :
    c6crop.pixel_region.left =
      ⌊mulF32 (f32round (c6subimage.resolutionX : ℚ)) (f32round c6crop.crop_region.left)⌋ -
      ⌊mulF32 (f32round c6subimage.region.left) (f32round (c6subimage.resolutionX : ℚ))⌋ ∧
    c6crop.pixel_region.right =
      ⌊mulF32 (f32round (c6subimage.resolutionX : ℚ)) (f32round c6crop.crop_region.right)⌋ ∧
    c6crop.pixel_region.top =
      ⌊mulF32 (f32round c6subimage.region.bottom) (f32round (c6subimage.resolutionY : ℚ))⌋ -
      ⌊mulF32 (f32round (c6subimage.resolutionY : ℚ)) (f32round c6crop.crop_region.bottom)⌋ ∧
    c6crop.pixel_region.bottom =
      ⌊mulF32 (f32round c6subimage.region.bottom) (f32round (c6subimage.resolutionY : ℚ))⌋ -
      ⌊mulF32 (f32round (c6subimage.resolutionY : ℚ)) (f32round c6crop.crop_region.top)⌋ :=
  C6_pixel_projection_amended c6subimage 2 60 50 c6crop (by decide)

theorem f32round_err' {q : ℚ} {E : ℤ} (hq : 0 ≤ q) (hE : q ≤ (2:ℚ)^E)
    (hEm : (-126:ℤ) ≤ E) : |f32round q - q| ≤ (2:ℚ)^(E - 24) := by
  simp only [f32round]
  exact fround_err hq hE (by omega)

theorem f32round_mono' {q1 q2 : ℚ} (h0 : 0 ≤ q1) (h : q1 ≤ q2) :
    f32round q1 ≤ f32round q2 := by
  simp only [f32round]
  exact fround_mono (by norm_num) h0 h

theorem f32round_nonneg' {q : ℚ} (h : 0 ≤ q) : 0 ≤ f32round q := by
  simp only [f32round]
  exact fround_nonneg h

theorem f32round_pow2' {E : ℤ} (hE : (-149:ℤ) ≤ E) :
    f32round ((2:ℚ)^E) = (2:ℚ)^E := by
  simp only [f32round]
  exact fround_pow2 (by norm_num) hE

theorem f32round_one : f32round 1 = 1 := by decide

/-- The pure arithmetic of the round-trip error analysis: with `T = 2^F` the
binade of the width `w`, each float32 step of the forward and inverse
transforms is within its half-ulp of the exact value, and the floor step
loses at most one pixel; summing the contributions bounds the reconstructed
coordinate within one pixel plus a small float32 allowance. -/
theorem roundtrip_core {x w T a W m s P t u : ℚ} {p : ℤ}
    (hx0 : 0 ≤ x) (hx1 : x ≤ 1) (hw1 : 1 ≤ w)
    (hT1 : 1 ≤ T) (hTw : T ≤ w)
    (ha_err : |a - x| ≤ 1/16777216)
    (hW_err : |W - w| ≤ T/8388608) (hW1 : 1 ≤ W) (hW2 : W ≤ 2*T)
    (hm_err : |m - a*W| ≤ T/8388608)
    (hs_err : |s - (m + 1/2)| ≤ T/4194304)
    (hp1 : (p:ℚ) ≤ s) (hp2 : s - 1 < (p:ℚ))
    (hP_err : |P - (p:ℚ)| ≤ T/4194304)
    (ht_err : |t - (P + 1/2)| ≤ T/2097152)
    (hu_err : |u - t/W| ≤ 1/1048576) :
    |u - x| ≤ 1/w + 1/65536 := by
  have hWpos : (0:ℚ) < W := by linarith
  have hwpos : (0:ℚ) < w := by linarith
  obtain ⟨ha1, ha2⟩ := abs_le.mp ha_err
  obtain ⟨hWe1, hWe2⟩ := abs_le.mp hW_err
  obtain ⟨hm1, hm2⟩ := abs_le.mp hm_err
  obtain ⟨hs1, hs2⟩ := abs_le.mp hs_err
  obtain ⟨hP1, hP2⟩ := abs_le.mp hP_err
  obtain ⟨ht1, ht2⟩ := abs_le.mp ht_err
  obtain ⟨hu1, hu2⟩ := abs_le.mp hu_err
  have hW0 : (0:ℚ) ≤ W := by linarith
  have haW_up : a*W ≤ x*W + W/16777216 := by
    have h1 : a*W ≤ (x + 1/16777216)*W :=
      mul_le_mul_of_nonneg_right (by linarith) hW0
    have h2 : (x + 1/16777216)*W = x*W + W/16777216 := by ring
    linarith
  have haW_low : x*W - W/16777216 ≤ a*W := by
    have h1 : (x - 1/16777216)*W ≤ a*W :=
      mul_le_mul_of_nonneg_right (by linarith) hW0
    have h2 : (x - 1/16777216)*W = x*W - W/16777216 := by ring
    linarith
  have hA : t ≤ (p:ℚ) + 1/2 + T/4194304 + T/2097152 := by
    linarith only [ht2, hP2]
  have hB : (p:ℚ) ≤ m + 1/2 + T/4194304 := by
    linarith only [hp1, hs2]
  have hC : m ≤ x*W + W/16777216 + T/8388608 := by
    linarith only [hm2, haW_up]
  have hD : W/16777216 ≤ T/8388608 := by
    linarith only [hW2]
  have ht_up : t ≤ x*W + 1 + 10*T/8388608 := by
    linarith only [hA, hB, hC, hD]
  have ht_low : x*W - 10*T/8388608 ≤ t := by
    linarith only [ht1, hP1, hp2, hs1, hm1, haW_low, hW2]
  have hW_low : w - T/8388608 ≤ W := by linarith only [hWe1]
  have hWT2 : T/2 ≤ W := by linarith only [hW_low, hTw, hT1]
  have hWw : 1 - 1/8388608 ≤ W/w := by
    rw [le_div_iff hwpos]
    have hexp : (1 - 1/8388608)*w = w - w/8388608 := by ring
    rw [hexp]
    linarith only [hW_low, hTw]
  have hW31 : 31*T/8388608 ≤ 31*W/4194304 := by linarith only [hWT2]
  have hkey : t/W ≤ x + 1/w + 31/4194304 := by
    rw [div_le_iff hWpos]
    have hexp : (x + 1/w + 31/4194304)*W = x*W + W/w + 31*W/4194304 := by ring
    rw [hexp]
    linarith only [hWw, hW31, ht_up, hT1]
  have hvlow : x - 10/4194304 ≤ t/W := by
    rw [le_div_iff hWpos]
    have hexp : (x - 10/4194304)*W = x*W - 10*W/4194304 := by ring
    rw [hexp]
    linarith only [ht_low, hWT2]
  rw [abs_le]
  constructor
  · have hwinv : (0:ℚ) < 1/w := by positivity
    linarith only [hu1, hvlow, hwinv]
  · linarith only [hu2, hkey]

/-- One coordinate of the round trip `calculate_borders ∘ calculate_pixels`
is within one pixel (`1/w`) plus a float32 rounding allowance (`2^-16`) of
the original fraction. -/
theorem roundtrip_coordinate_close (x : ℚ) (w : ℤ)
    (hx0 : 0 ≤ x) (hx1 : x ≤ 1) (hw : 1 ≤ w) :
    |border_coordinate (scale_to_pixel x w) w - x| ≤ 1/(w:ℚ) + 1/65536 := by
  have hwq : (1:ℚ) ≤ ((w:ℤ):ℚ) := by exact_mod_cast hw
  have hwpos : (0:ℚ) < ((w:ℤ):ℚ) := by linarith
  -- the binade of w
  have hF0 : (0:ℤ) ≤ qlog2 ((w:ℤ):ℚ) := by
    have h01 : qlog2 (1:ℚ) = 0 := by decide
    calc (0:ℤ) = qlog2 (1:ℚ) := h01.symm
    _ ≤ qlog2 ((w:ℤ):ℚ) := qlog2_mono one_pos hwq
  set F := qlog2 ((w:ℤ):ℚ) with hFdef
  have hT1 : (1:ℚ) ≤ (2:ℚ)^F := by
    calc (1:ℚ) = (2:ℚ)^(0:ℤ) := by norm_num
    _ ≤ (2:ℚ)^F := zpow_le_zpow_right₀ (by norm_num) hF0
  have hT0 : (0:ℚ) < (2:ℚ)^F := by linarith
  have hTw : (2:ℚ)^F ≤ ((w:ℤ):ℚ) := (qlog2_spec hwpos).1
  have hwT : ((w:ℤ):ℚ) < 2 * (2:ℚ)^F := by
    have h := (qlog2_spec hwpos).2
    rwa [zpow_add₀ (by norm_num : (2:ℚ) ≠ 0), zpow_one, mul_comm] at h
  have hF1 : (2:ℚ)^(F+1) = 2 * (2:ℚ)^F := by
    rw [zpow_add₀ (by norm_num : (2:ℚ) ≠ 0), zpow_one, mul_comm]
  have hF2 : (2:ℚ)^(F+2) = 4 * (2:ℚ)^F := by
    rw [zpow_add₀ (by norm_num : (2:ℚ) ≠ 0), show ((2:ℚ)^(2:ℤ)) = 4 by norm_num,
      mul_comm]
  have hF3 : (2:ℚ)^(F+3) = 8 * (2:ℚ)^F := by
    rw [zpow_add₀ (by norm_num : (2:ℚ) ≠ 0), show ((2:ℚ)^(3:ℤ)) = 8 by norm_num,
      mul_comm]
  -- the step values
  set a := f32round x with hadef
  set W := f32round ((w:ℤ):ℚ) with hWdef
  set m := f32round (a * W) with hmdef
  set s := f32round (m + 1/2) with hsdef
  set p : ℤ := ⌊s⌋ with hpdef
  set P := f32round ((p:ℤ):ℚ) with hPdef
  set t := f32round (P + 1/2) with htdef
  set u := f32round (t / W) with hudef
  -- a
  have ha_err : |a - x| ≤ 1/16777216 := by
    have h := f32round_err' (E := 0) hx0 (by rw [zpow_zero]; exact hx1) (by norm_num)
    have h24 : (2:ℚ)^((0:ℤ) - 24) = 1/16777216 := by norm_num [zpow_neg]
    rwa [h24] at h
  have ha0 : 0 ≤ a := f32round_nonneg' hx0
  have ha1 : a ≤ 1 := by
    have h := f32round_mono' hx0 hx1
    rwa [f32round_one] at h
  -- W
  have hW_err : |W - ((w:ℤ):ℚ)| ≤ (2:ℚ)^F / 8388608 := by
    have h := f32round_err' (q := ((w:ℤ):ℚ)) (E := F + 1) (by linarith)
      (by rw [hF1]; linarith) (by omega)
    have hc : (2:ℚ)^(F + 1 - 24) = (2:ℚ)^F / 8388608 := by
      rw [show F + 1 - 24 = F + (-23) from by ring,
        zpow_add₀ (by norm_num : (2:ℚ) ≠ 0),
        show (2:ℚ)^(-23:ℤ) = 1/8388608 from by norm_num [zpow_neg]]
      ring
    rwa [hc] at h
  have hW1 : (1:ℚ) ≤ W := by
    have h := f32round_mono' (by norm_num : (0:ℚ) ≤ 1) hwq
    rwa [f32round_one] at h
  have hW0 : (0:ℚ) ≤ W := by linarith
  have hWup : W ≤ (2:ℚ)^(F+1) := by
    have h := f32round_mono' (by linarith : (0:ℚ) ≤ ((w:ℤ):ℚ))
      (by rw [hF1]; linarith : ((w:ℤ):ℚ) ≤ (2:ℚ)^(F+1))
    rwa [f32round_pow2' (by omega)] at h
  -- m
  have haW0 : (0:ℚ) ≤ a * W := mul_nonneg ha0 hW0
  have haWup : a * W ≤ (2:ℚ)^(F+1) := by
    have h : a * W ≤ 1 * W := mul_le_mul_of_nonneg_right ha1 hW0
    rw [one_mul] at h
    linarith
  have hm_err : |m - a*W| ≤ (2:ℚ)^F / 8388608 := by
    have h := f32round_err' (E := F + 1) haW0 haWup (by omega)
    have hc : (2:ℚ)^(F + 1 - 24) = (2:ℚ)^F / 8388608 := by
      rw [show F + 1 - 24 = F + (-23) from by ring,
        zpow_add₀ (by norm_num : (2:ℚ) ≠ 0),
        show (2:ℚ)^(-23:ℤ) = 1/8388608 from by norm_num [zpow_neg]]
      ring
    rwa [hc] at h
  have hm0 : 0 ≤ m := f32round_nonneg' haW0
  have hmup : m ≤ (2:ℚ)^(F+1) := by
    have h := f32round_mono' haW0 haWup
    rwa [f32round_pow2' (by omega)] at h
  -- s
  have hs_arg0 : (0:ℚ) ≤ m + 1/2 := by linarith
  have hs_argE : m + 1/2 ≤ (2:ℚ)^(F+2) := by
    rw [hF2]
    rw [hF1] at hmup
    linarith
  have hs_err : |s - (m + 1/2)| ≤ (2:ℚ)^F / 4194304 := by
    have h := f32round_err' (E := F + 2) hs_arg0 hs_argE (by omega)
    have hc : (2:ℚ)^(F + 2 - 24) = (2:ℚ)^F / 4194304 := by
      rw [show F + 2 - 24 = F + (-22) from by ring,
        zpow_add₀ (by norm_num : (2:ℚ) ≠ 0),
        show (2:ℚ)^(-22:ℤ) = 1/4194304 from by norm_num [zpow_neg]]
      ring
    rwa [hc] at h
  have hs0 : 0 ≤ s := f32round_nonneg' hs_arg0
  have hsup : s ≤ (2:ℚ)^(F+2) := by
    have h := f32round_mono' hs_arg0 hs_argE
    rwa [f32round_pow2' (by omega)] at h
  -- p
  have hp1 : ((p:ℤ):ℚ) ≤ s := Int.floor_le s
  have hp2 : s - 1 < ((p:ℤ):ℚ) := by
    have h := Int.lt_floor_add_one s
    push_cast at h ⊢
    linarith
  have hp0 : (0:ℚ) ≤ ((p:ℤ):ℚ) := by
    have h : (0:ℤ) ≤ p := Int.floor_nonneg.mpr hs0
    exact_mod_cast h
  -- P
  have hP_err : |P - ((p:ℤ):ℚ)| ≤ (2:ℚ)^F / 4194304 := by
    have h := f32round_err' (E := F + 2) hp0 (by linarith) (by omega)
    have hc : (2:ℚ)^(F + 2 - 24) = (2:ℚ)^F / 4194304 := by
      rw [show F + 2 - 24 = F + (-22) from by ring,
        zpow_add₀ (by norm_num : (2:ℚ) ≠ 0),
        show (2:ℚ)^(-22:ℤ) = 1/4194304 from by norm_num [zpow_neg]]
      ring
    rwa [hc] at h
  have hP0 : 0 ≤ P := f32round_nonneg' hp0
  have hPup : P ≤ (2:ℚ)^(F+2) := by
    have h := f32round_mono' hp0 (by linarith : ((p:ℤ):ℚ) ≤ (2:ℚ)^(F+2))
    rwa [f32round_pow2' (by omega)] at h
  -- t
  have ht_arg0 : (0:ℚ) ≤ P + 1/2 := by linarith
  have ht_argE : P + 1/2 ≤ (2:ℚ)^(F+3) := by
    rw [hF3]
    rw [hF2] at hPup
    linarith
  have ht_err : |t - (P + 1/2)| ≤ (2:ℚ)^F / 2097152 := by
    have h := f32round_err' (E := F + 3) ht_arg0 ht_argE (by omega)
    have hc : (2:ℚ)^(F + 3 - 24) = (2:ℚ)^F / 2097152 := by
      rw [show F + 3 - 24 = F + (-21) from by ring,
        zpow_add₀ (by norm_num : (2:ℚ) ≠ 0),
        show (2:ℚ)^(-21:ℤ) = 1/2097152 from by norm_num [zpow_neg]]
      ring
    rwa [hc] at h
  have ht0 : 0 ≤ t := f32round_nonneg' ht_arg0
  have htup : t ≤ (2:ℚ)^(F+3) := by
    have h := f32round_mono' ht_arg0 ht_argE
    rwa [f32round_pow2' (by omega)] at h
  -- u
  have hWpos : (0:ℚ) < W := by linarith
  have hWe := abs_le.mp hW_err
  have hWT2 : (2:ℚ)^F / 2 ≤ W := by linarith
  have hv0 : (0:ℚ) ≤ t / W := div_nonneg ht0 hW0
  have hv16 : t / W ≤ (2:ℚ)^(4:ℤ) := by
    rw [show ((2:ℚ)^(4:ℤ)) = 16 from by norm_num, div_le_iff hWpos]
    rw [hF3] at htup
    linarith
  have hu_err : |u - t/W| ≤ 1/1048576 := by
    have h := f32round_err' (E := 4) hv0 hv16 (by norm_num)
    have hc : (2:ℚ)^((4:ℤ) - 24) = 1/1048576 := by norm_num [zpow_neg]
    rwa [hc] at h
  -- the computed coordinate is u
  have hval : border_coordinate (scale_to_pixel x w) w = u := by
    have hp' : scale_to_pixel x w = p := by
      rw [hpdef, hsdef, hmdef, hadef, hWdef]
      rfl
    rw [hudef, htdef, hPdef, hp', hWdef]
    unfold border_coordinate divF32 addF32
    simp only [f32round]
    exact fround_idem_all (by norm_num) _
  rw [hval]
  have hW2' : W ≤ 2 * (2:ℚ)^F := by
    rw [← hF1]
    exact hWup
  exact roundtrip_core hx0 hx1 hwq hT1 hTw ha_err hW_err hW1 hW2'
    hm_err hs_err hp1 hp2 hP_err ht_err hu_err

/-- C3 counterexample: the region with all coordinates `1/5` satisfies the
claim's hypotheses (coordinates in `[0,1]`, `left ≤ right`,
`bottom ≤ top`) and the dimensions `w = 2^25`, `h = 1` are positive, yet
the round trip moves the left coordinate by `11/335544320`, which exceeds
one pixel's fractional size `1/w = 10/335544320`: the float32 rounding of
the intermediate steps breaks the exact one-pixel bound. -/
theorem C3_cex :
    ((0:ℚ) ≤ 1/5 ∧ (1/5:ℚ) ≤ 1 ∧ (1/5:ℚ) ≤ 1/5 ∧
     (0:ℤ) < 33554432 ∧ (0:ℤ) < 1) ∧
    ¬ (|(calculate_borders (calculate_pixels ⟨1/5, 1/5, 1/5, 1/5⟩ 33554432 1)
          33554432 1).left - 1/5| ≤ 1/33554432) := by
  decide

/-- C3 amended: for every well-formed region and positive dimensions, the
round trip `pixels_to_region (region_to_pixels r w h) w h` differs from `r`
by at most one pixel's fractional size plus a float32 rounding allowance of
`2^-16` on each axis (`1/w + 1/65536` horizontally, `1/h + 1/65536`
vertically); the allowance is necessary (see the counterexample), because
every intermediate step is rounded to single precision. -/
theorem C3_roundtrip_bound_amended :
    ∀ (r : Region) (w h : ℤ), 0 < w → 0 < h →
      0 ≤ r.left → r.left ≤ 1 → 0 ≤ r.top → r.top ≤ 1 →
      0 ≤ r.right → r.right ≤ 1 → 0 ≤ r.bottom → r.bottom ≤ 1 →
      r.left ≤ r.right → r.bottom ≤ r.top →
      |(calculate_borders (calculate_pixels r w h) w h).left - r.left|
        ≤ 1/(w:ℚ) + 1/65536 ∧
      |(calculate_borders (calculate_pixels r w h) w h).right - r.right|
        ≤ 1/(w:ℚ) + 1/65536 ∧
      |(calculate_borders (calculate_pixels r w h) w h).top - r.top|
        ≤ 1/(h:ℚ) + 1/65536 ∧
      |(calculate_borders (calculate_pixels r w h) w h).bottom - r.bottom|
        ≤ 1/(h:ℚ) + 1/65536 := by
  intro r w h hw hh hl0 hl1 ht0 ht1 hr0 hr1 hb0 hb1 _ _
  refine ⟨?_, ?_, ?_, ?_⟩
  · exact roundtrip_coordinate_close r.left w hl0 hl1 (by omega)
  · exact roundtrip_coordinate_close r.right w hr0 hr1 (by omega)
  · exact roundtrip_coordinate_close r.top h ht0 ht1 (by omega)
  · exact roundtrip_coordinate_close r.bottom h hb0 hb1 (by omega)

/-- Witness for C3 amended at the claim's own concrete scenario. -/
theorem C3_roundtrip_bound_amended_witness :
    |(calculate_borders (calculate_pixels ⟨0, 1, 1/2, 1/2⟩ 800 600) 800 600).left - 0|
      ≤ 1/(800:ℚ) + 1/65536 ∧
    |(calculate_borders (calculate_pixels ⟨0, 1, 1/2, 1/2⟩ 800 600) 800 600).right - 1/2|
      ≤ 1/(800:ℚ) + 1/65536 ∧
    |(calculate_borders (calculate_pixels ⟨0, 1, 1/2, 1/2⟩ 800 600) 800 600).top - 1|
      ≤ 1/(600:ℚ) + 1/65536 ∧
    |(calculate_borders (calculate_pixels ⟨0, 1, 1/2, 1/2⟩ 800 600) 800 600).bottom - 1/2|
      ≤ 1/(600:ℚ) + 1/65536 :=
  C3_roundtrip_bound_amended ⟨0, 1, 1/2, 1/2⟩ 800 600 (by decide) (by decide)
    (by decide) (by decide) (by decide) (by decide) (by decide) (by decide)
    (by decide) (by decide) (by decide) (by decide)
